import Mathlib

/-!
Verification development for the `lifetimed-bytes` crate: a lifetime-tagged
wrapper `Bytes<'b>` around the reference-counted byte buffer `bytes::Bytes`.

Shallow embedding conventions:
* A byte buffer is modelled by the byte sequence it currently denotes, as a
  `List Nat` (byte values; no arithmetic is performed on bytes, so the 0..255
  bound is irrelevant to every statement below).
* `bytes::Bytes` (the external SharedByteBuffer collaborator, whose source is
  not part of this repository) is modelled as `SharedBytes` from its documented
  semantics as restated in the spec: `slice`/`split_off`/`split_to`/`truncate`/
  `clear`/`advance` adjust which sub-range of the storage is denoted, and
  out-of-bounds offsets panic.
* The wrapper's phantom lifetime parameter `'b` is modelled by a `Lifetime`
  index carrying no data, mirroring `PhantomData<&'b ()>`; operations preserve
  the tag exactly as the Rust signatures do.
* A Rust panic is modelled by `none`; a normal result by `some`.
* In-place mutation (`&mut self`) is modelled by returning the updated value:
  `split_off`/`split_to` return `(updated self, returned handle)`.
-/

namespace LifetimedBytes

/-- Lifetime tags: the unconstrained static tag, or a borrowed scope. Mirrors
the phantom parameter `'b` of `Bytes<'b>`; it carries no runtime data. -/
inductive Lifetime where
  | static : Lifetime
  | borrowed (id : Nat) : Lifetime
deriving DecidableEq

/-- Model of the external `bytes::Bytes` collaborator: the byte sequence the
buffer currently denotes. Allocation identity and reference counts are not
modelled (value semantics). -/
structure SharedBytes where
  data : List Nat
deriving DecidableEq

/-- Lexicographic comparison of byte sequences, as `Ord` on Rust byte slices
defines it (element-wise, shorter strict prefixes compare less). -/
def lexCmp : List Nat → List Nat → Ordering
  | [], [] => .eq
  | [], _ :: _ => .lt
  | _ :: _, [] => .gt
  | a :: as, b :: bs => if a < b then .lt else if b < a then .gt else lexCmp as bs

/-- Rust range forms accepted by `slice` via `impl RangeBounds<usize>`. -/
inductive ByteRange where
  | range (s e : Nat)
  | rangeInclusive (s e : Nat)
  | rangeFrom (s : Nat)
  | rangeTo (e : Nat)
  | rangeToInclusive (e : Nat)
  | full
deriving DecidableEq

/-- Resolve a range to concrete `(begin, end)` bounds against a length, as
`bytes::Bytes::slice` does (Included start is kept, Excluded end is kept,
Included end adds one, unbounded sides become `0` / `len`). -/
def ByteRange.resolve : ByteRange → Nat → Nat × Nat
  | .range s e, _ => (s, e)
  | .rangeInclusive s e, _ => (s, e + 1)
  | .rangeFrom s, len => (s, len)
  | .rangeTo e, _ => (0, e)
  | .rangeToInclusive e, _ => (0, e + 1)
  | .full, len => (0, len)

namespace SharedBytes

/-- Modelled from the spec: `bytes::Bytes::len`. -/
def len (s : SharedBytes) : Nat := s.data.length

/-- Modelled from the spec: `Buf::remaining` for `bytes::Bytes` (equals `len`). -/
def remaining (s : SharedBytes) : Nat := s.data.length

/-- Modelled from the spec: `Buf::chunk` for `bytes::Bytes` returns the whole
currently denoted contiguous byte span. -/
def chunk (s : SharedBytes) : List Nat := s.data

/-- Modelled from the spec: `bytes::Bytes::slice(range)` — resolves the range
bounds and panics (`none`) unless `begin ≤ end ∧ end ≤ len`; otherwise denotes
exactly the bytes `[begin, end)`. -/
def slice (s : SharedBytes) (r : ByteRange) : Option SharedBytes :=
  if (r.resolve s.data.length).1 ≤ (r.resolve s.data.length).2 ∧
      (r.resolve s.data.length).2 ≤ s.data.length then
    some ⟨(s.data.take (r.resolve s.data.length).2).drop (r.resolve s.data.length).1⟩
  else
    none

/-- Modelled from the spec: `bytes::Bytes::slice_ref(subset)` — the subset is a
sub-span of the current view, located by position (pointer containment is
modelled as an offset and a length); panics unless contained. -/
def slice_ref (s : SharedBytes) (off n : Nat) : Option SharedBytes :=
  if off + n ≤ s.data.length then
    some ⟨(s.data.take (off + n)).drop off⟩
  else
    none

/-- Modelled from the spec: `bytes::Bytes::split_off(at)` — panics if
`at > len`, otherwise self retains `[0, at)` and the call returns `[at, len)`.
Result pair is `(updated self, returned buffer)`. -/
def split_off (s : SharedBytes) (i : Nat) : Option (SharedBytes × SharedBytes) :=
  if i ≤ s.data.length then
    some (⟨s.data.take i⟩, ⟨s.data.drop i⟩)
  else
    none

/-- Modelled from the spec: `bytes::Bytes::split_to(at)` — panics if
`at > len`, otherwise self retains `[at, len)` and the call returns `[0, at)`.
Result pair is `(updated self, returned buffer)`. -/
def split_to (s : SharedBytes) (i : Nat) : Option (SharedBytes × SharedBytes) :=
  if i ≤ s.data.length then
    some (⟨s.data.drop i⟩, ⟨s.data.take i⟩)
  else
    none

/-- Modelled from the spec: `bytes::Bytes::truncate(len)` — keeps at most the
first `len` bytes; no-op when `len` is at least the current length. -/
def truncate (s : SharedBytes) (n : Nat) : SharedBytes := ⟨s.data.take n⟩

/-- Modelled from the spec: `bytes::Bytes::clear` — truncates to zero length. -/
def clear (s : SharedBytes) : SharedBytes := s.truncate 0

/-- Modelled from the spec: `Buf::advance(cnt)` for `bytes::Bytes` — panics if
`cnt` exceeds the remaining length (never clamps), otherwise drops exactly the
first `cnt` bytes from the view. -/
def advance (s : SharedBytes) (cnt : Nat) : Option SharedBytes :=
  if cnt ≤ s.data.length then some ⟨s.data.drop cnt⟩ else none

/-- Modelled from the spec: content equality of `bytes::Bytes` against a byte
slice (`PartialEq<[u8]>` in the collaborator). -/
def eq_list (s : SharedBytes) (other : List Nat) : Bool := s.data == other

/-- Modelled from the spec: content ordering of `bytes::Bytes` against a byte
slice (`PartialOrd<[u8]>` in the collaborator; byte slices are totally
ordered, so the option is always `some`). -/
def cmp_list (s : SharedBytes) (other : List Nat) : Option Ordering :=
  some (lexCmp s.data other)

/-- Modelled from the spec: `Ord::cmp` for `bytes::Bytes` — lexicographic over
the byte content. -/
def ord_cmp (s other : SharedBytes) : Ordering := lexCmp s.data other.data

end SharedBytes

/-- Model of `Bytes<'b>` (src/src/lib.rs lines 11-15): a wrapper holding a
`bytes::Bytes` plus a phantom lifetime marker. -/
structure Bytes (lt : Lifetime) where
  inner : SharedBytes
deriving DecidableEq

/-- UTF-8 string slices (`str` / `String`) enter every comparison through
their byte representation; only that byte list matters here. -/
structure Str where
  bytes : List Nat
deriving DecidableEq

namespace Bytes

/-- `Bytes::new` (lib.rs 18-23): the empty buffer, valid at any lifetime. -/
def new (lt : Lifetime) : Bytes lt := ⟨⟨[]⟩⟩

/-- `Bytes::len` (lib.rs 25-27): delegates to the inner buffer. -/
def len {lt : Lifetime} (b : Bytes lt) : Nat := b.inner.len

/-- `Bytes::is_empty` (lib.rs 29-31): `self.len() == 0`. -/
def is_empty {lt : Lifetime} (b : Bytes lt) : Bool := b.len == 0

/-- `Bytes::as_slice` (lib.rs 61-63): `self.inner.borrow()`, the denoted
byte span. -/
def as_slice {lt : Lifetime} (b : Bytes lt) : List Nat := b.inner.data

/-- `Bytes::slice` (lib.rs 33-35): `self.inner.slice(range).into()`. Takes
`&self`: the receiver is not mutated (pure read in this embedding). -/
def slice {lt : Lifetime} (b : Bytes lt) (r : ByteRange) : Option (Bytes lt) :=
  (b.inner.slice r).map fun s => ⟨s⟩

/-- `Bytes::slice_ref` (lib.rs 37-39): `self.inner.slice_ref(subset).into()`. -/
def slice_ref {lt : Lifetime} (b : Bytes lt) (off n : Nat) : Option (Bytes lt) :=
  (b.inner.slice_ref off n).map fun s => ⟨s⟩

/-- `Bytes::split_off` (lib.rs 42-44): `self.inner.split_off(at).into()`; the
pair is `(updated self, returned handle)`, both tagged `'b`. -/
def split_off {lt : Lifetime} (b : Bytes lt) (i : Nat) : Option (Bytes lt × Bytes lt) :=
  (b.inner.split_off i).map fun p => (⟨p.1⟩, ⟨p.2⟩)

/-- `Bytes::split_to` (lib.rs 47-49): `self.inner.split_to(at).into()`; the
pair is `(updated self, returned handle)`, both tagged `'b`. -/
def split_to {lt : Lifetime} (b : Bytes lt) (i : Nat) : Option (Bytes lt × Bytes lt) :=
  (b.inner.split_to i).map fun p => (⟨p.1⟩, ⟨p.2⟩)

/-- `Bytes::truncate` (lib.rs 52-54): `self.inner.truncate(len)`, in place. -/
def truncate {lt : Lifetime} (b : Bytes lt) (n : Nat) : Bytes lt := ⟨b.inner.truncate n⟩

/-- `Bytes::clear` (lib.rs 57-59): `self.inner.clear()`, in place. -/
def clear {lt : Lifetime} (b : Bytes lt) : Bytes lt := ⟨b.inner.clear⟩

/-- `Buf::remaining` for `Bytes` (lib.rs 67-69): `self.inner.remaining()`. -/
def remaining {lt : Lifetime} (b : Bytes lt) : Nat := b.inner.remaining

/-- `Buf::chunk` for `Bytes` (lib.rs 71-73): `self.as_slice()`. -/
def chunk {lt : Lifetime} (b : Bytes lt) : List Nat := b.as_slice

/-- `Buf::advance` for `Bytes` (lib.rs 75-77): `self.inner.advance(cnt)`. -/
def advance {lt : Lifetime} (b : Bytes lt) (cnt : Nat) : Option (Bytes lt) :=
  (b.inner.advance cnt).map fun s => ⟨s⟩

/-- `Deref` for `Bytes` (lib.rs 80-86): `self.inner.deref()`, the byte span. -/
def deref {lt : Lifetime} (b : Bytes lt) : List Nat := b.inner.data

/-- `AsRef<[u8]>` for `Bytes` (lib.rs 88-92): `self.inner.as_ref()`. -/
def as_ref {lt : Lifetime} (b : Bytes lt) : List Nat := b.inner.data

/-- `Borrow<[u8]>` for `Bytes` (lib.rs 94-98): `self.as_slice()`. -/
def borrow {lt : Lifetime} (b : Bytes lt) : List Nat := b.as_slice

/-- `From<&'b [u8]> for Bytes<'b>` (lib.rs 100-109): the unsafe borrowing
constructor; the lifetime transmute is a type-level fact with no effect on the
denoted bytes, so the handle denotes exactly the given slice. -/
def ofSlice (lt : Lifetime) (raw : List Nat) : Bytes lt := ⟨⟨raw⟩⟩

/-- `From<&'b str> for Bytes<'b>` (lib.rs 111-115): `s.as_bytes().into()`. -/
def ofStr (lt : Lifetime) (s : Str) : Bytes lt := ofSlice lt s.bytes

/-- `From<bytes::Bytes> for Bytes<'b>` (lib.rs 117-124): wraps directly, no
copy; the caller chooses the lifetime tag. -/
def ofShared (lt : Lifetime) (s : SharedBytes) : Bytes lt := ⟨s⟩

/-- `From<Vec<u8>> for Bytes<'b>` (lib.rs 126-130): via `bytes::Bytes::from`. -/
def ofVec (lt : Lifetime) (v : List Nat) : Bytes lt := ofShared lt ⟨v⟩

/-- `From<Bytes<'static>> for bytes::Bytes` (lib.rs 132-136): available only
at the static tag (mirrored by this definition's domain); returns the inner
buffer itself, no copy. -/
def intoShared (b : Bytes Lifetime.static) : SharedBytes := b.inner

end Bytes

/-- Model of the crate's `IntoIter` (lib.rs 144-147) specialised at
`bytes::Bytes`: wraps `bytes::buf::IntoIter`, which holds the remaining
buffer. -/
structure IntoIter (lt : Lifetime) where
  inner : SharedBytes

namespace IntoIter

/-- Modelled from the spec: `bytes::buf::IntoIter::next` — `None` when nothing
remains, otherwise the first byte of the current chunk, advancing by one.
Returns `(item, updated iterator)`. -/
def next {lt : Lifetime} (it : IntoIter lt) : Option Nat × IntoIter lt :=
  if it.inner.remaining = 0 then
    (none, it)
  else
    (it.inner.chunk.head?, ⟨(it.inner.advance 1).getD it.inner⟩)

/-- Modelled from the spec: `bytes::buf::IntoIter::size_hint` — lower and
upper bound both equal the exact remaining count. -/
def size_hint {lt : Lifetime} (it : IntoIter lt) : Nat × Option Nat :=
  (it.inner.remaining, some it.inner.remaining)

/-- Repeatedly call `next`, collecting the yielded bytes; fuel bounds the
number of calls. -/
def drainAux {lt : Lifetime} : Nat → IntoIter lt → List Nat
  | 0, _ => []
  | Nat.succ fuel, it =>
    match it.next with
    | (none, _) => []
    | (some a, it2) => a :: drainAux fuel it2

/-- Every byte the iterator yields, in order, obtained by calling `next`
until exhaustion (the remaining count bounds the calls needed). -/
def drain {lt : Lifetime} (it : IntoIter lt) : List Nat :=
  drainAux it.inner.remaining it

end IntoIter

/-- `IntoIterator for Bytes<'b>` (lib.rs 163-173): consumes the handle. -/
def Bytes.into_iter {lt : Lifetime} (b : Bytes lt) : IntoIter lt := ⟨b.inner⟩

namespace Bytes

/-- `PartialEq<bytes::Bytes> for Bytes<'b>` (forward_impls, lib.rs 177-181). -/
def eq_shared {lt : Lifetime} (b : Bytes lt) (o : SharedBytes) : Bool :=
  b.inner.eq_list o.data

/-- `PartialOrd<bytes::Bytes> for Bytes<'b>` (forward_impls, lib.rs 189-193). -/
def cmp_shared {lt : Lifetime} (b : Bytes lt) (o : SharedBytes) : Option Ordering :=
  b.inner.cmp_list o.data

/-- `PartialEq<[u8]> for Bytes<'b>` (forward_impls, lib.rs 204). -/
def eq_slice {lt : Lifetime} (b : Bytes lt) (o : List Nat) : Bool := b.inner.eq_list o

/-- `PartialOrd<[u8]> for Bytes<'b>` (forward_impls, lib.rs 204). -/
def cmp_slice {lt : Lifetime} (b : Bytes lt) (o : List Nat) : Option Ordering :=
  b.inner.cmp_list o

/-- `PartialEq<str> for Bytes<'b>` (forward_impls, lib.rs 205); `String`
(lib.rs 207) compares through the same byte view. -/
def eq_str {lt : Lifetime} (b : Bytes lt) (o : Str) : Bool := b.inner.eq_list o.bytes

/-- `PartialOrd<str> for Bytes<'b>` (forward_impls, lib.rs 205). -/
def cmp_str {lt : Lifetime} (b : Bytes lt) (o : Str) : Option Ordering :=
  b.inner.cmp_list o.bytes

/-- `PartialEq<Vec<u8>> for Bytes<'b>` (forward_impls, lib.rs 206). -/
def eq_vec {lt : Lifetime} (b : Bytes lt) (o : List Nat) : Bool := b.inner.eq_list o

/-- `PartialOrd<Vec<u8>> for Bytes<'b>` (forward_impls, lib.rs 206). -/
def cmp_vec {lt : Lifetime} (b : Bytes lt) (o : List Nat) : Option Ordering :=
  b.inner.cmp_list o

/-- `PartialEq<Bytes<'a>> for Bytes<'b>` (lib.rs 209-213): cross-lifetime. -/
def eq_bytes {la lb : Lifetime} (a : Bytes la) (b : Bytes lb) : Bool :=
  a.inner.eq_list b.inner.data

/-- `PartialOrd<Bytes<'a>> for Bytes<'b>` (lib.rs 215-219): cross-lifetime. -/
def cmp_bytes {la lb : Lifetime} (a : Bytes la) (b : Bytes lb) : Option Ordering :=
  a.inner.cmp_list b.inner.data

/-- `Ord for Bytes<'b>` (lib.rs 276-280): `self.inner.cmp(&other.inner)`. -/
def ord_cmp {lt : Lifetime} (a b : Bytes lt) : Ordering := a.inner.ord_cmp b.inner

end Bytes

/-- `PartialEq<Bytes<'b>> for [u8]` / `&[u8]` (lib.rs 183-187, 221-225). -/
def slice_eq_bytes {lt : Lifetime} (o : List Nat) (b : Bytes lt) : Bool :=
  o == b.inner.data

/-- `PartialOrd<Bytes<'b>> for [u8]` / `&[u8]` (lib.rs 195-199, 227-231). -/
def slice_cmp_bytes {lt : Lifetime} (o : List Nat) (b : Bytes lt) : Option Ordering :=
  some (lexCmp o b.inner.data)

/-- `PartialEq<Bytes<'b>> for [u8; N]` (lib.rs 233-237): the array compares as
the slice `self as &[u8]`; `N` mirrors the const generic and the array content
is its byte list. -/
def array_eq_bytes {lt : Lifetime} (_N : Nat) (o : List Nat) (b : Bytes lt) : Bool :=
  o == b.inner.data

/-- `PartialOrd<Bytes<'b>> for [u8; N]` (lib.rs 239-243). -/
def array_cmp_bytes {lt : Lifetime} (_N : Nat) (o : List Nat) (b : Bytes lt) :
    Option Ordering :=
  some (lexCmp o b.inner.data)

/-- `PartialEq<Bytes<'b>> for &str` (lib.rs 245-249) and `String`
(lib.rs 207): compares through the byte view. -/
def str_eq_bytes {lt : Lifetime} (o : Str) (b : Bytes lt) : Bool :=
  o.bytes == b.inner.data

/-- `PartialOrd<Bytes<'b>> for &str` (lib.rs 251-255). -/
def str_cmp_bytes {lt : Lifetime} (o : Str) (b : Bytes lt) : Option Ordering :=
  some (lexCmp o.bytes b.inner.data)

/-- `PartialEq<Bytes<'b>> for bytes::Bytes` (forward_impls, lib.rs 183-187). -/
def shared_eq_bytes {lt : Lifetime} (o : SharedBytes) (b : Bytes lt) : Bool :=
  o.data == b.inner.data

/-- `PartialOrd<Bytes<'b>> for bytes::Bytes` (forward_impls, lib.rs 195-199). -/
def shared_cmp_bytes {lt : Lifetime} (o : SharedBytes) (b : Bytes lt) : Option Ordering :=
  some (lexCmp o.data b.inner.data)

/-- C2: for a handle with content S and `at ≤ len S`, `split_off at` leaves
self with exactly `S[0, at)` and returns exactly `S[at, len)`, whose
concatenation reproduces S; for `at > len S` it panics (no result). -/
theorem split_off_spec {lt : Lifetime} (b : Bytes lt) (i : Nat) :
    (i ≤ b.len →
      b.split_off i = some (⟨⟨b.as_slice.take i⟩⟩, ⟨⟨b.as_slice.drop i⟩⟩) ∧
      b.as_slice.take i ++ b.as_slice.drop i = b.as_slice) ∧
    (b.len < i → b.split_off i = none) := by
  constructor
  · intro h
    have h' : i ≤ b.inner.data.length := h
    exact ⟨by simp [Bytes.split_off, SharedBytes.split_off, Bytes.as_slice, h'],
      List.take_append_drop i b.as_slice⟩
  · intro h
    have h' : ¬ i ≤ b.inner.data.length := Nat.not_le.mpr h
    simp [Bytes.split_off, SharedBytes.split_off, h']

/-- C2 witness: a concrete split at offset 2 of a 3-byte handle. -/
theorem split_off_witness :
    2 ≤ (Bytes.ofSlice .static [1, 2, 3]).len ∧
    (Bytes.ofSlice .static [1, 2, 3]).split_off 2 =
      some (Bytes.ofSlice .static [1, 2], Bytes.ofSlice .static [3]) :=
  ⟨by decide, ((split_off_spec (Bytes.ofSlice .static [1, 2, 3]) 2).1 (by decide)).1⟩

/-- C3: for a handle with content S and `at ≤ len S`, `split_to at` leaves
self with exactly `S[at, len)` and returns exactly `S[0, at)` (the mirror
image of `split_off`); for `at > len S` it panics. -/
theorem split_to_spec {lt : Lifetime} (b : Bytes lt) (i : Nat) :
    (i ≤ b.len →
      b.split_to i = some (⟨⟨b.as_slice.drop i⟩⟩, ⟨⟨b.as_slice.take i⟩⟩)) ∧
    (b.len < i → b.split_to i = none) := by
  constructor
  · intro h
    have h' : i ≤ b.inner.data.length := h
    simp [Bytes.split_to, SharedBytes.split_to, Bytes.as_slice, h']
  · intro h
    have h' : ¬ i ≤ b.inner.data.length := Nat.not_le.mpr h
    simp [Bytes.split_to, SharedBytes.split_to, h']

/-- C3 witness: a concrete split-to at offset 1 of a 3-byte handle. -/
theorem split_to_witness :
    1 ≤ (Bytes.ofSlice .static [7, 8, 9]).len ∧
    (Bytes.ofSlice .static [7, 8, 9]).split_to 1 =
      some (Bytes.ofSlice .static [8, 9], Bytes.ofSlice .static [7]) :=
  ⟨by decide, (split_to_spec (Bytes.ofSlice .static [7, 8, 9]) 1).1 (by decide)⟩

/-- C5: `truncate n` is a no-op when `n ≥ len`, otherwise keeps exactly the
first `n` bytes (so the length becomes `min n len` — it never grows);
`clear` equals `truncate 0`; both are idempotent. -/
theorem truncate_clear_spec {lt : Lifetime} (b : Bytes lt) (n : Nat) :
    (b.len ≤ n → b.truncate n = b) ∧
    (b.truncate n).as_slice = b.as_slice.take n ∧
    (b.truncate n).len = min n b.len ∧
    b.clear = b.truncate 0 ∧
    (b.truncate n).truncate n = b.truncate n ∧
    b.clear.clear = b.clear := by
  refine ⟨?_, rfl, ?_, rfl, ?_, rfl⟩
  · intro h
    have h' : b.inner.data.length ≤ n := h
    cases b with
    | mk inner =>
      cases inner with
      | mk data =>
        simp only [Bytes.truncate, SharedBytes.truncate]
        simp [List.take_of_length_le h']
  · simp [Bytes.truncate, SharedBytes.truncate, Bytes.len, SharedBytes.len]
  · simp [Bytes.truncate, SharedBytes.truncate, List.take_take]

/-- C5 witness: truncating a 2-byte handle to 5 bytes is a no-op. -/
theorem truncate_clear_witness :
    (Bytes.ofSlice .static [1, 2]).len ≤ 5 ∧
    (Bytes.ofSlice .static [1, 2]).truncate 5 = Bytes.ofSlice .static [1, 2] :=
  ⟨by decide, (truncate_clear_spec (Bytes.ofSlice .static [1, 2]) 5).1 (by decide)⟩

/-- C4: for a range whose resolved bounds `(begin, end)` satisfy
`begin ≤ end ≤ len`, `slice` returns a new handle whose content is exactly
`S[begin, end)` (the receiver is taken immutably, so it is unchanged); when
`end > len` or `begin > end` the call panics. -/
theorem slice_spec {lt : Lifetime} (b : Bytes lt) (r : ByteRange) :
    ((r.resolve b.len).1 ≤ (r.resolve b.len).2 ∧ (r.resolve b.len).2 ≤ b.len →
      b.slice r =
        some ⟨⟨(b.as_slice.take (r.resolve b.len).2).drop (r.resolve b.len).1⟩⟩) ∧
    (¬ ((r.resolve b.len).1 ≤ (r.resolve b.len).2 ∧ (r.resolve b.len).2 ≤ b.len) →
      b.slice r = none) := by
  constructor
  · intro h
    have h' : (r.resolve b.inner.data.length).1 ≤ (r.resolve b.inner.data.length).2 ∧
        (r.resolve b.inner.data.length).2 ≤ b.inner.data.length := h
    simp only [Bytes.slice, SharedBytes.slice, if_pos h', Option.map_some]
    rfl
  · intro h
    have h' : ¬ ((r.resolve b.inner.data.length).1 ≤ (r.resolve b.inner.data.length).2 ∧
        (r.resolve b.inner.data.length).2 ≤ b.inner.data.length) := h
    simp only [Bytes.slice, SharedBytes.slice, if_neg h']
    rfl

/-- C4 witness: slicing `1..3` out of a 4-byte handle yields its middle two
bytes. -/
theorem slice_witness :
    (Bytes.ofSlice .static [4, 5, 6, 7]).slice (ByteRange.range 1 3) =
      some (Bytes.ofSlice .static [5, 6]) :=
  (slice_spec (Bytes.ofSlice .static [4, 5, 6, 7]) (ByteRange.range 1 3)).1 (by decide)

/-- C8: `advance n` panics exactly when `n` exceeds the remaining length
(never clamping), and on success removes exactly the first `n` bytes, so the
remaining count decreases by exactly `n`. -/
theorem advance_spec {lt : Lifetime} (b : Bytes lt) (n : Nat) :
    (b.advance n = none ↔ b.remaining < n) ∧
    (∀ b2 : Bytes lt, b.advance n = some b2 →
      b2.remaining + n = b.remaining ∧ b2.as_slice = b.as_slice.drop n) := by
  constructor
  · constructor
    · intro h
      by_contra hc
      have h' : n ≤ b.inner.data.length := Nat.not_lt.mp hc
      simp [Bytes.advance, SharedBytes.advance, h'] at h
    · intro h
      have h' : ¬ n ≤ b.inner.data.length := Nat.not_le.mpr h
      simp [Bytes.advance, SharedBytes.advance, h']
  · intro b2 h
    by_cases h' : n ≤ b.inner.data.length
    · simp [Bytes.advance, SharedBytes.advance, h'] at h
      subst h
      refine ⟨?_, rfl⟩
      simp only [Bytes.remaining, SharedBytes.remaining, List.length_drop]
      omega
    · simp [Bytes.advance, SharedBytes.advance, h'] at h

/-- C8 witness: advancing a 3-byte handle by 2 keeps exactly its last byte. -/
theorem advance_witness :
    (Bytes.ofSlice .static [1, 2, 3]).advance 2 = some (Bytes.ofSlice .static [3]) ∧
    (Bytes.ofSlice .static [3]).remaining + 2 =
      (Bytes.ofSlice .static [1, 2, 3]).remaining := by
  have h := (advance_spec (Bytes.ofSlice .static [1, 2, 3]) 2).2
    (Bytes.ofSlice .static [3]) (by decide)
  exact ⟨by decide, h.1⟩

/-- C9: wrapping a shared buffer into a handle and converting back (possible
only at the static tag, as the domain of `Bytes.intoShared` mirrors) is the
round-trip identity, and both directions preserve the byte content exactly. -/
theorem conversion_spec :
    (∀ s : SharedBytes, Bytes.intoShared (Bytes.ofShared .static s) = s) ∧
    (∀ b : Bytes Lifetime.static, (Bytes.intoShared b).data = b.as_slice) ∧
    (∀ (lt : Lifetime) (s : SharedBytes), (Bytes.ofShared lt s).as_slice = s.data) :=
  ⟨fun _ => rfl, fun _ => rfl, fun _ _ => rfl⟩

/-- C10: every read-side view agrees on one contiguous byte sequence:
`remaining = len`, `chunk` is the whole current content in one span, `deref`,
`as_ref` and `borrow` denote the same sequence, and `is_empty` holds exactly
when it has length 0. As this holds for every handle, it holds in particular
for the handle mutated by and the handle returned from each operation. -/
theorem views_agree_spec {lt : Lifetime} (b : Bytes lt) :
    b.remaining = b.len ∧
    b.chunk = b.as_slice ∧
    b.chunk.length = b.len ∧
    b.deref = b.chunk ∧
    b.as_ref = b.chunk ∧
    b.borrow = b.chunk ∧
    (b.is_empty = true ↔ b.len = 0) := by
  refine ⟨rfl, rfl, rfl, rfl, rfl, rfl, ?_⟩
  simp [Bytes.is_empty]

/-- C10 witness: the empty handle is empty. -/
theorem views_agree_witness : (Bytes.new .static).is_empty = true :=
  (views_agree_spec (Bytes.new .static)).2.2.2.2.2.2.mpr rfl

/-- Stepping the iterator on a nonempty buffer yields the head byte and keeps
exactly the tail. -/
theorem intoIter_next_cons {lt : Lifetime} (a : Nat) (rest : List Nat) :
    IntoIter.next (⟨⟨a :: rest⟩⟩ : IntoIter lt) = (some a, ⟨⟨rest⟩⟩) := by
  simp [IntoIter.next, SharedBytes.remaining, SharedBytes.chunk, SharedBytes.advance]

/-- Draining an iterator over buffer content `l` with enough fuel yields
exactly `l`. -/
theorem drainAux_eq {lt : Lifetime} :
    ∀ (fuel : Nat) (l : List Nat), l.length ≤ fuel →
      IntoIter.drainAux fuel (⟨⟨l⟩⟩ : IntoIter lt) = l := by
  intro fuel
  induction fuel with
  | zero =>
    intro l h
    cases l with
    | nil => rfl
    | cons a rest => simp at h
  | succ f ih =>
    intro l h
    cases l with
    | nil => simp [IntoIter.drainAux, IntoIter.next, SharedBytes.remaining]
    | cons a rest =>
      have hr : rest.length ≤ f := by
        simp only [List.length_cons] at h
        omega
      simp [IntoIter.drainAux, intoIter_next_cons, ih rest hr]

/-- C7: consuming iteration yields exactly the handle's bytes, left to right,
each once; `size_hint` reports the exact remaining count at every step (which
drops by one at each yielded byte); and an exhausted iterator stays exhausted,
yielding nothing forever. -/
theorem into_iter_spec {lt : Lifetime} (b : Bytes lt) :
    (b.into_iter).drain = b.as_slice ∧
    (∀ it : IntoIter lt, it.size_hint = (it.inner.data.length, some it.inner.data.length)) ∧
    (∀ (it it2 : IntoIter lt) (a : Nat), it.next = (some a, it2) →
      it.inner.data.head? = some a ∧ it2.inner.data = it.inner.data.tail ∧
      it2.inner.data.length + 1 = it.inner.data.length) ∧
    (∀ it : IntoIter lt, it.inner.data.length = 0 → it.next = (none, it)) := by
  refine ⟨?_, fun it => rfl, ?_, ?_⟩
  · cases b with
    | mk inner =>
      cases inner with
      | mk data => exact drainAux_eq data.length data le_rfl
  · intro it it2 a h
    cases it with
    | mk inner =>
      cases inner with
      | mk l =>
        cases l with
        | nil => simp [IntoIter.next, SharedBytes.remaining] at h
        | cons x xs =>
          rw [intoIter_next_cons] at h
          injection h with h1 h2
          injection h1 with h1
          subst h1
          subst h2
          exact ⟨rfl, rfl, rfl⟩
  · intro it h
    cases it with
    | mk inner =>
      cases inner with
      | mk l =>
        have : l = [] := List.eq_nil_of_length_eq_zero h
        subst this
        simp [IntoIter.next, SharedBytes.remaining]

/-- C7 witness: iterating a handle over bytes 10, 20, 30 yields exactly that
sequence, and the exhausted iterator yields nothing. -/
theorem into_iter_witness :
    (Bytes.ofSlice .static [10, 20, 30]).into_iter.drain = [10, 20, 30] ∧
    IntoIter.next (⟨⟨[]⟩⟩ : IntoIter .static) = (none, (⟨⟨[]⟩⟩ : IntoIter .static)) := by
  have h := into_iter_spec (Bytes.ofSlice .static [10, 20, 30])
  exact ⟨h.1, h.2.2.2 ⟨⟨[]⟩⟩ rfl⟩

/-- Lexicographic comparison returns `eq` exactly on equal sequences. -/
theorem lexCmp_eq_iff : ∀ (x y : List Nat), lexCmp x y = .eq ↔ x = y := by
  intro x
  induction x with
  | nil => intro y; cases y <;> simp [lexCmp]
  | cons a as ih =>
    intro y
    cases y with
    | nil => simp [lexCmp]
    | cons b bs =>
      by_cases h1 : a < b
      · have h2 : a ≠ b := by omega
        simp [lexCmp, h1, h2]
      · by_cases h2 : b < a
        · have h3 : a ≠ b := by omega
          simp [lexCmp, h1, h2, h3]
        · have h3 : a = b := by omega
          subst h3
          simp [lexCmp, h1, h2, ih bs]

/-- Swapping the operands of the lexicographic comparison swaps the verdict. -/
theorem lexCmp_swap : ∀ (x y : List Nat), (lexCmp x y).swap = lexCmp y x := by
  intro x
  induction x with
  | nil => intro y; cases y <;> rfl
  | cons a as ih =>
    intro y
    cases y with
    | nil => rfl
    | cons b bs =>
      by_cases h1 : a < b
      · have h2 : ¬ b < a := by omega
        simp [lexCmp, h1, h2, Ordering.swap]
      · by_cases h2 : b < a
        · simp [lexCmp, h1, h2, Ordering.swap]
        · simp [lexCmp, h1, h2, ih bs]

/-- Strict lexicographic precedence is transitive. -/
theorem lexCmp_lt_trans : ∀ (x y z : List Nat),
    lexCmp x y = .lt → lexCmp y z = .lt → lexCmp x z = .lt := by
  intro x
  induction x with
  | nil =>
    intro y z h1 h2
    cases z with
    | nil =>
      exfalso
      cases y with
      | nil => simp [lexCmp] at h2
      | cons b bs => simp [lexCmp] at h2
    | cons c cs => simp [lexCmp]
  | cons a as ih =>
    intro y z h1 h2
    cases y with
    | nil => simp [lexCmp] at h1
    | cons b bs =>
      cases z with
      | nil => simp [lexCmp] at h2
      | cons c cs =>
        simp only [lexCmp] at h1 h2 ⊢
        by_cases hab : a < b
        · by_cases hbc : b < c
          · have hac : a < c := by omega
            simp [hac]
          · by_cases hcb : c < b
            · simp [hbc, hcb] at h2
            · have hac : a < c := by omega
              simp [hac]
        · by_cases hba : b < a
          · simp [hab, hba] at h1
          · have hab' : a = b := by omega
            simp [hab, hba] at h1
            by_cases hbc : b < c
            · have hac : a < c := by omega
              simp [hac]
            · by_cases hcb : c < b
              · simp [hbc, hcb] at h2
              · simp [hbc, hcb] at h2
                have hac1 : ¬ a < c := by omega
                have hac2 : ¬ c < a := by omega
                simp [hac1, hac2]
                exact ih bs cs h1 h2

/-- C6: equality and ordering on the handle agree with plain lexicographic
byte comparison for every supported right-hand side (byte slice, string
slice, owned vector, owned string — through `Str`'s byte view —, fixed-size
array, the bare shared buffer, and a handle of any lifetime tag, in both
operand orders); equality is reflexive, symmetric and transitive; the
ordering swaps under operand exchange (antisymmetry), is transitive, agrees
with equality at `eq`, and `Ord::cmp` coincides with the partial comparison. -/
theorem compare_spec (la lb lc : Lifetime) (a : Bytes la) (b : Bytes lb) (c : Bytes lc)
    (d e : Bytes la) (xs : List Nat) (s : Str) (sh : SharedBytes) (N : Nat) :
    (a.cmp_bytes b = some .lt → b.cmp_bytes c = some .lt → a.cmp_bytes c = some .lt) ∧
    (a.eq_bytes b = true → b.eq_bytes c = true → a.eq_bytes c = true) ∧
    (a.eq_bytes a = true) ∧
    (a.eq_bytes b = true ↔ b.eq_bytes a = true) ∧
    (a.eq_bytes b = true ↔ a.as_slice = b.as_slice) ∧
    (a.cmp_bytes b = some (lexCmp a.as_slice b.as_slice)) ∧
    (d.cmp_bytes e = some (d.ord_cmp e)) ∧
    (d.ord_cmp e = lexCmp d.as_slice e.as_slice) ∧
    ((d.ord_cmp e).swap = e.ord_cmp d) ∧
    (d.ord_cmp e = .eq ↔ d.eq_bytes e = true) ∧
    (a.eq_slice xs = true ↔ a.as_slice = xs) ∧
    (a.cmp_slice xs = some (lexCmp a.as_slice xs)) ∧
    (a.eq_vec xs = true ↔ a.as_slice = xs) ∧
    (a.cmp_vec xs = some (lexCmp a.as_slice xs)) ∧
    (a.eq_str s = true ↔ a.as_slice = s.bytes) ∧
    (a.cmp_str s = some (lexCmp a.as_slice s.bytes)) ∧
    (a.eq_shared sh = true ↔ a.as_slice = sh.data) ∧
    (a.cmp_shared sh = some (lexCmp a.as_slice sh.data)) ∧
    (slice_eq_bytes xs a = true ↔ xs = a.as_slice) ∧
    (slice_cmp_bytes xs a = some (lexCmp xs a.as_slice)) ∧
    (array_eq_bytes N xs a = true ↔ xs = a.as_slice) ∧
    (array_cmp_bytes N xs a = some (lexCmp xs a.as_slice)) ∧
    (str_eq_bytes s a = true ↔ s.bytes = a.as_slice) ∧
    (str_cmp_bytes s a = some (lexCmp s.bytes a.as_slice)) ∧
    (shared_eq_bytes sh a = true ↔ sh.data = a.as_slice) ∧
    (shared_cmp_bytes sh a = some (lexCmp sh.data a.as_slice)) := by
  refine ⟨?_, ?_, ?_, ?_, ?_, rfl, rfl, rfl, ?_, ?_,
    ?_, rfl, ?_, rfl, ?_, rfl, ?_, rfl, ?_, rfl, ?_, rfl, ?_, rfl, ?_, rfl⟩
  · intro h1 h2
    simp only [Bytes.cmp_bytes, SharedBytes.cmp_list, Option.some.injEq] at h1 h2 ⊢
    exact lexCmp_lt_trans _ _ _ h1 h2
  · intro h1 h2
    simp only [Bytes.eq_bytes, SharedBytes.eq_list, beq_iff_eq] at h1 h2 ⊢
    exact h1.trans h2
  · simp [Bytes.eq_bytes, SharedBytes.eq_list]
  · simp only [Bytes.eq_bytes, SharedBytes.eq_list, beq_iff_eq]
    exact eq_comm
  · simp [Bytes.eq_bytes, SharedBytes.eq_list, Bytes.as_slice]
  · exact lexCmp_swap _ _
  · simp [Bytes.ord_cmp, SharedBytes.ord_cmp, Bytes.eq_bytes, SharedBytes.eq_list,
      lexCmp_eq_iff]
  · simp [Bytes.eq_slice, SharedBytes.eq_list, Bytes.as_slice]
  · simp [Bytes.eq_vec, SharedBytes.eq_list, Bytes.as_slice]
  · simp [Bytes.eq_str, SharedBytes.eq_list, Bytes.as_slice]
  · simp [Bytes.eq_shared, SharedBytes.eq_list, Bytes.as_slice]
  · simp [slice_eq_bytes, Bytes.as_slice]
  · simp [array_eq_bytes, Bytes.as_slice]
  · simp [str_eq_bytes, Bytes.as_slice]
  · simp [shared_eq_bytes, Bytes.as_slice]

/-- C6 witness: strict ordering chains through a middle element on concrete
one-byte handles. -/
theorem compare_witness :
    (Bytes.ofSlice .static [1]).cmp_bytes (Bytes.ofSlice .static [3]) = some .lt :=
  (compare_spec .static .static .static
    (Bytes.ofSlice .static [1]) (Bytes.ofSlice .static [2]) (Bytes.ofSlice .static [3])
    (Bytes.ofSlice .static [1]) (Bytes.ofSlice .static [2])
    [] ⟨[]⟩ ⟨[]⟩ 0).1 (by decide) (by decide)

end LifetimedBytes
